import Mathlib

set_option maxHeartbeats 1000000

/-!
Shallow embedding of the NoGo solver core of `gtp_connection.py`:
the transposition table, the history-heuristic table, the recursive boolean
negamax search `negamax_boolean`, and the GTP-level `solve` / `genmove`
operations with their timeout / snapshot protocol.

The board itself (`board_util` / the simple board) is an external
collaborator that is not part of this file's source; it is modelled from the
spec as an abstract structure of operations `BoardOps` together with the
lawfulness facts the spec states about it.  The search is a pure
state-passing function; the asynchronous `SIGALRM` timeout is modelled by a
fuel budget: exhausting the fuel at a call entry plays the role of the
`TimeoutError` being raised inside the recursion, and propagates outward
exactly like an uncaught exception (in particular it skips the pending
`undoMove` calls, since the source has no try/finally around them).

Ghost instrumentation (`playCount`, `updateLog`, `retLog`) is threaded
through the state: it never influences control flow and exists only to state
the observational properties (call counting on move application, history
updates, returned results) that the spec itself describes as observable.
-/

/-- Embedding of `TranspositionTable` (src lines 553-564).  The Python dict
is modelled as an association list where `store` prepends (so `lookup`,
which takes the first match, sees the most recent binding — dict upsert
semantics). -/
structure TranspositionTable where
  table : List (Nat × (Bool × Option Nat))
deriving DecidableEq

/-- `TranspositionTable.store`: `self.table[code] = (score, move)`. -/
def TranspositionTable.store (t : TranspositionTable) (code : Nat) (score : Bool)
    (move : Option Nat) : TranspositionTable :=
  ⟨(code, (score, move)) :: t.table⟩

/-- `TranspositionTable.lookup`: `self.table.get(code)` (`None` when absent). -/
def TranspositionTable.lookup (t : TranspositionTable) (code : Nat) :
    Option (Bool × Option Nat) :=
  (t.table.find? fun e => e.1 == code).map Prod.snd

/-- Embedding of `HistoryHeuristicTable` (src lines 567-581), again a
dict modelled as an association list. -/
structure HistoryHeuristicTable where
  table : List (Nat × Nat)
deriving DecidableEq

/-- `HistoryHeuristicTable.update`: `self.table[move] += depth**2`,
initializing to `depth**2` when the key is absent. -/
def HistoryHeuristicTable.update (t : HistoryHeuristicTable) (move : Nat)
    (depth : Nat) : HistoryHeuristicTable :=
  if t.table.any fun e => e.1 == move then
    ⟨t.table.map fun e => if e.1 == move then (e.1, e.2 + depth ^ 2) else e⟩
  else
    ⟨(move, depth ^ 2) :: t.table⟩

/-- `HistoryHeuristicTable.lookup`: `self.table.get(code) or 0` (scores are
natural numbers, so `x or 0` is `x` when present and `0` when absent). -/
def HistoryHeuristicTable.lookup (t : HistoryHeuristicTable) (code : Nat) : Nat :=
  ((t.table.find? fun e => e.1 == code).map Prod.snd).getD 0

/-- Modelled from the spec: the board collaborator (spec section 6), whose
implementation (`board_util` / the simple board) is not part of the source
file.  Moves and position codes are natural numbers; colors are booleans
(`true` = black).  `playMove` returns the next position together with the
legality boolean of `play_move`; `undoMove` is `board.undoMove(move)`;
`emptyPoints` is the number of empty points, the measure that strictly
decreases when a stone is played; `countSteps` is `board.count_steps()`. -/
structure BoardOps (Pos : Type) where
  code : Pos → Nat
  current : Pos → Bool
  legalMoves : Pos → Bool → List Nat
  playMove : Pos → Nat → Bool → Pos × Bool
  undoMove : Pos → Nat → Pos
  isLegal : Pos → Nat → Bool → Bool
  emptyPoints : Pos → Nat
  countSteps : Pos → Nat

/-- Modelled from the spec: the behavioural facts the spec assumes of the
board collaborator — enumerated legal moves are accepted by `play_move`
(spec section 4.1/7), `is_legal` agrees with `play_move` acceptance, a
rejected `play_move` leaves the board unchanged (spec section 7a), undoing
an accepted move restores the previous position (spec section 3), playing a
stone strictly decreases the number of empty points and alternates the side
to move, and the position code is collision-free (spec section 3). -/
structure BoardOps.Lawful {Pos : Type} (B : BoardOps Pos) : Prop where
  legal_play : ∀ p m, m ∈ B.legalMoves p (B.current p) →
    (B.playMove p m (B.current p)).2 = true
  isLegal_play : ∀ p m c, B.isLegal p m c = true → (B.playMove p m c).2 = true
  reject_eq : ∀ p m c, (B.playMove p m c).2 = false → (B.playMove p m c).1 = p
  undo_play : ∀ p m c, (B.playMove p m c).2 = true →
    B.undoMove (B.playMove p m c).1 m = p
  play_decr : ∀ p m c, (B.playMove p m c).2 = true →
    B.emptyPoints (B.playMove p m c).1 < B.emptyPoints p
  play_flip : ∀ p m c, (B.playMove p m c).2 = true →
    B.current (B.playMove p m c).1 = !(B.current p)
  code_inj : ∀ p q, B.code p = B.code q → p = q

/-- Stable insertion (descending keys): a later element with an equal key is
placed after the earlier ones, matching Python's stable
`sort(key=..., reverse=True)`. -/
def insertDesc (key : Nat → Nat) (m : Nat) : List Nat → List Nat
  | [] => [m]
  | x :: xs => if key x ≤ key m then m :: x :: xs else x :: insertDesc key m xs

/-- Stable sort by descending key, the model of
`moves.sort(key=lambda x: history_table.lookup(x), reverse=True)`. -/
def sortDesc (key : Nat → Nat) : List Nat → List Nat
  | [] => []
  | m :: ms => insertDesc key m (sortDesc key ms)

/-- The mutable state threaded through the search: the shared board, the two
tables, plus ghost instrumentation (number of `play_move` calls, the log of
`history_table.update` calls, and the log of results returned by completed
`negamax_boolean` calls, each with the code and depth at the return site). -/
structure SearchState (Pos : Type) where
  board : Pos
  tt : TranspositionTable
  ht : HistoryHeuristicTable
  playCount : Nat
  updateLog : List (Nat × Nat)
  retLog : List (Nat × Nat × Bool × Option Nat)
deriving DecidableEq

/-- Embedding of `store_result` (src lines 467-475): store under
`board.code()` and return `(result, move)`. -/
def store_result {Pos : Type} (B : BoardOps Pos) (tt : TranspositionTable)
    (board : Pos) (result : Bool) (move : Option Nat) :
    (Bool × Option Nat) × TranspositionTable :=
  ((result, move), tt.store (B.code board) result move)

/-- Embedding of the `for move in moves:` loop of `negamax_boolean`
(src lines 537-551), parametrised by the recursive call `rec` (which is
`negamax_boolean` at one unit less fuel).  The result of `play_move` is
discarded exactly as in the source; `none` models the `TimeoutError`
propagating out of the recursive call, in which case the pending
`board.undoMove(move)` is skipped (there is no try/finally in the source).
Falling off the end of the loop stores and returns `(False, None)`. -/
def negamax_loop {Pos : Type} (B : BoardOps Pos)
    (rec : SearchState Pos → Nat → Option (Bool × Option Nat) × SearchState Pos) :
    List Nat → SearchState Pos → Nat → Option (Bool × Option Nat) × SearchState Pos
  | [], st, depth =>
    let rm := store_result B st.tt st.board false none
    (some rm.1, { st with tt := rm.2, retLog := (B.code st.board, depth, rm.1) :: st.retLog })
  | move :: ms, st, depth =>
    let st1 := { st with board := (B.playMove st.board move (B.current st.board)).1,
                         playCount := st.playCount + 1 }
    match rec st1 (depth + 1) with
    | (none, stE) => (none, stE)
    | (some sub, st2) =>
      let st3 := { st2 with board := B.undoMove st2.board move }
      if !sub.1 then
        let st4 := { st3 with ht := st3.ht.update move depth,
                              updateLog := (move, depth) :: st3.updateLog }
        let rm := store_result B st4.tt st4.board true (some move)
        (some rm.1, { st4 with tt := rm.2,
                               retLog := (B.code st4.board, depth, rm.1) :: st4.retLog })
      else negamax_loop B rec ms st3 depth

/-- Embedding of `negamax_boolean` (src lines 508-551).  `fuel` models the
wall-clock budget granted by `signal.alarm`: fuel `0` at a call entry is the
`TimeoutError` being delivered, reported as `none` and propagated without
any clean-up.  Otherwise: look up `board.code()` in the transposition table
and return a hit unchanged; else enumerate the current player's legal
moves, sort them by descending history score (stably), and run the loop. -/
def negamax_boolean {Pos : Type} (B : BoardOps Pos) :
    Nat → SearchState Pos → Nat → Option (Bool × Option Nat) × SearchState Pos
  | 0, st, _ => (none, st)
  | fuel + 1, st, depth =>
    match st.tt.lookup (B.code st.board) with
    | some result => (some result,
        { st with retLog := (B.code st.board, depth, result) :: st.retLog })
    | none =>
      let moves := B.legalMoves st.board (B.current st.board)
      let sorted := sortDesc st.ht.lookup moves
      negamax_loop B (fun st2 d2 => negamax_boolean B fuel st2 d2) sorted st depth

/-- The game-theoretic value of a position, fuel-indexed: the mover wins iff
some legal move leads to a position that is not a win for the opponent.
This is the specification-side definition of a forced win, used to judge
the solver. -/
def gameWinB {Pos : Type} (B : BoardOps Pos) : Nat → Pos → Bool
  | 0, _ => false
  | fuel + 1, p =>
    (B.legalMoves p (B.current p)).any fun m =>
      !(gameWinB B fuel (B.playMove p m (B.current p)).1)

/-- The game-theoretic value at its stable fuel (more than the number of
empty points, which bounds the remaining game length). -/
def gameWin {Pos : Type} (B : BoardOps Pos) (p : Pos) : Bool :=
  gameWinB B (B.emptyPoints p + 1) p

/-- The part of the `GtpConnection` state the solver claims concern: the
shared board and the transposition / history tables for the current board
size (the source keeps one table pair per size in a dict; the board size is
constant during each call modelled here, so the pair for the current size is
carried directly). -/
structure GtpConnection (Pos : Type) where
  board : Pos
  tt : TranspositionTable
  ht : HistoryHeuristicTable
deriving DecidableEq

/-- The fresh search state for a call into the solver. -/
def GtpConnection.searchState {Pos : Type} (conn : GtpConnection Pos) : SearchState Pos :=
  { board := conn.board, tt := conn.tt, ht := conn.ht,
    playCount := 0, updateLog := [], retLog := [] }

/-- The response of the `solve` command: `unknown` on timeout, otherwise the
mover's color together with a winning move, or just the winner's color when
the mover loses. -/
inductive SolveResponse where
  | unknown : SolveResponse
  | winMove : Bool → Nat → SolveResponse
  | loseColor : Bool → SolveResponse
deriving DecidableEq

/-- Embedding of `GtpConnection.solve` (src lines 369-400): take a snapshot
(`board_copy = self.board.copy()`; values are immutable here, so the deep
copy is the value itself), arm the alarm (the fuel budget), run
`negamax_boolean` at depth `count_steps()`.  On `TimeoutError` respond
`unknown` and replace the live board with the snapshot, keeping the tables
as the aborted search left them.  On normal return report the mover's color
with the move, or the opponent's color when the move is `None`. -/
def GtpConnection.solve {Pos : Type} (B : BoardOps Pos) (conn : GtpConnection Pos)
    (fuel : Nat) : SolveResponse × GtpConnection Pos :=
  let steps := B.countSteps conn.board
  let board_copy := conn.board
  match negamax_boolean B fuel conn.searchState steps with
  | (none, stE) => (SolveResponse.unknown, { board := board_copy, tt := stE.tt, ht := stE.ht })
  | (some r, st) =>
    let conn2 : GtpConnection Pos := { board := st.board, tt := st.tt, ht := st.ht }
    match r.2 with
    | some mv => (SolveResponse.winMove (B.current st.board) mv, conn2)
    | none => (SolveResponse.loseColor (!(B.current st.board)), conn2)

/-- The response of the `genmove` command. -/
inductive GenmoveResponse where
  | move : Nat → GenmoveResponse
  | resign : GenmoveResponse
deriving DecidableEq

/-- Embedding of `GtpConnection.genmove_cmd` (src lines 260-276): run the
solver at depth `0` with no timeout protection (`none` therefore models the
call never returning); respond `resign` when the returned move is `None`;
otherwise, if the move is legal for the requested color, play it on the
shared board and respond with it, else respond `resign`. -/
def GtpConnection.genmove_cmd {Pos : Type} (B : BoardOps Pos) (conn : GtpConnection Pos)
    (fuel : Nat) (color : Bool) : Option (GenmoveResponse × GtpConnection Pos) :=
  match negamax_boolean B fuel conn.searchState 0 with
  | (none, _) => none
  | (some r, st) =>
    let conn2 : GtpConnection Pos := { board := st.board, tt := st.tt, ht := st.ht }
    match r.2 with
    | none => some (GenmoveResponse.resign, conn2)
    | some mv =>
      if B.isLegal conn2.board mv color then
        some (GenmoveResponse.move mv, { conn2 with board := (B.playMove conn2.board mv color).1 })
      else
        some (GenmoveResponse.resign, conn2)

/-- A concrete lawful board for witnesses: a subtraction game.  A position
is (tokens remaining, side to move); the legal moves are to take one or two
tokens; the position code packs the pair injectively. -/
def nimB : BoardOps (Nat × Bool) where
  code p := 2 * p.1 + (if p.2 then 1 else 0)
  current p := p.2
  legalMoves p _ := (if 1 ≤ p.1 then [1] else []) ++ (if 2 ≤ p.1 then [2] else [])
  playMove p m _ :=
    if 1 ≤ m ∧ m ≤ 2 ∧ m ≤ p.1 then ((p.1 - m, !p.2), true) else (p, false)
  undoMove p m := (p.1 + m, !p.2)
  isLegal p m _ := decide (1 ≤ m ∧ m ≤ 2 ∧ m ≤ p.1)
  emptyPoints p := p.1
  countSteps _ := 0

/-- A board whose move enumeration offers a move that `play_move` rejects
(leaving the position unchanged), exercising the illegal-move error path the
spec describes. -/
def badB : BoardOps Nat where
  code p := p
  current _ := true
  legalMoves _ _ := [0]
  playMove p _ _ := (p, false)
  undoMove p _ := p
  isLegal _ _ _ := false
  emptyPoints _ := 0
  countSteps _ := 0

/-- The empty search state over a given board position with empty tables. -/
def initState {Pos : Type} (p : Pos) : SearchState Pos :=
  { board := p, tt := ⟨[]⟩, ht := ⟨[]⟩, playCount := 0, updateLog := [], retLog := [] }

/-! ## Basic lemmas about the tables and the sort -/

theorem TranspositionTable.lookup_store_self (t : TranspositionTable) (c : Nat)
    (b : Bool) (m : Option Nat) : (t.store c b m).lookup c = some (b, m) := by
  simp [TranspositionTable.store, TranspositionTable.lookup]

theorem TranspositionTable.lookup_store_other (t : TranspositionTable) (c c2 : Nat)
    (h : c2 ≠ c) (b : Bool) (m : Option Nat) :
    (t.store c b m).lookup c2 = t.lookup c2 := by
  have h2 : c ≠ c2 := Ne.symm h
  simp [TranspositionTable.store, TranspositionTable.lookup, h2]

theorem HistoryHeuristicTable.lookup_nil (m : Nat) :
    HistoryHeuristicTable.lookup ⟨[]⟩ m = 0 := by
  simp [HistoryHeuristicTable.lookup]

theorem HistoryHeuristicTable.lookup_unseen (t : HistoryHeuristicTable) (m : Nat)
    (h : ∀ e ∈ t.table, e.1 ≠ m) : t.lookup m = 0 := by
  have : t.table.find? (fun e => e.1 == m) = none := by
    rw [List.find?_eq_none]
    intro e he
    simp [h e he]
  simp [HistoryHeuristicTable.lookup, this]

theorem find_map_update (mv d : Nat) :
    ∀ l : List (Nat × Nat),
      ((l.map fun e => if e.1 = mv then (e.1, e.2 + d ^ 2) else e).find?
          fun e => e.1 == mv).map Prod.snd
        = (l.find? fun e => e.1 == mv).map fun e => e.2 + d ^ 2 := by
  intro l
  induction l with
  | nil => simp
  | cons e l ih =>
    by_cases he : e.1 = mv
    · simp [he, -List.find?_map]
    · simp [he, ih, -List.find?_map]

theorem find_map_update_other (mv d m2 : Nat) (hne : m2 ≠ mv) :
    ∀ l : List (Nat × Nat),
      (((l.map fun e => if e.1 = mv then (e.1, e.2 + d ^ 2) else e).find?
          fun e => e.1 == m2).map Prod.snd)
        = (l.find? fun e => e.1 == m2).map Prod.snd := by
  intro l
  induction l with
  | nil => simp
  | cons e l ih =>
    by_cases he : e.1 = mv
    · have h3 : e.1 ≠ m2 := by rw [he]; exact Ne.symm hne
      simp [he, Ne.symm hne, h3, ih, -List.find?_map]
    · by_cases he2 : e.1 = m2
      · simp [he, he2, hne, -List.find?_map]
      · simp [he, he2, ih, -List.find?_map]

theorem HistoryHeuristicTable.lookup_update_self (t : HistoryHeuristicTable)
    (mv d : Nat) : (t.update mv d).lookup mv = t.lookup mv + d ^ 2 := by
  unfold HistoryHeuristicTable.update
  by_cases hany : t.table.any fun e => e.1 == mv
  · rw [if_pos hany]
    unfold HistoryHeuristicTable.lookup
    have hmap : (t.table.map fun e => if e.1 == mv then (e.1, e.2 + d ^ 2) else e)
        = t.table.map fun e => if e.1 = mv then (e.1, e.2 + d ^ 2) else e := by
      simp
    rw [hmap, find_map_update]
    rcases List.any_eq_true.mp hany with ⟨e, he, hem⟩
    have hfind : (t.table.find? fun e => e.1 == mv).isSome :=
      List.find?_isSome.mpr ⟨e, he, hem⟩
    rcases Option.isSome_iff_exists.mp hfind with ⟨v, hv⟩
    simp [hv]
  · rw [if_neg hany]
    have h0 : t.lookup mv = 0 := by
      apply HistoryHeuristicTable.lookup_unseen
      intro e he hem
      exact hany (List.any_eq_true.mpr ⟨e, he, by simp [hem]⟩)
    rw [h0]
    unfold HistoryHeuristicTable.lookup
    simp

theorem HistoryHeuristicTable.lookup_update_other (t : HistoryHeuristicTable)
    (mv d m2 : Nat) (h : m2 ≠ mv) : (t.update mv d).lookup m2 = t.lookup m2 := by
  unfold HistoryHeuristicTable.update
  by_cases hany : t.table.any fun e => e.1 == mv
  · rw [if_pos hany]
    unfold HistoryHeuristicTable.lookup
    have hmap : (t.table.map fun e => if e.1 == mv then (e.1, e.2 + d ^ 2) else e)
        = t.table.map fun e => if e.1 = mv then (e.1, e.2 + d ^ 2) else e := by
      simp
    rw [hmap, find_map_update_other mv d m2 h]
  · rw [if_neg hany]
    unfold HistoryHeuristicTable.lookup
    have h2 : mv ≠ m2 := Ne.symm h
    simp [h2]

theorem HistoryHeuristicTable.lookup_update_le (t : HistoryHeuristicTable)
    (mv d m2 : Nat) : t.lookup m2 ≤ (t.update mv d).lookup m2 := by
  by_cases h : m2 = mv
  · subst h
    rw [HistoryHeuristicTable.lookup_update_self]
    omega
  · rw [HistoryHeuristicTable.lookup_update_other t mv d m2 h]

theorem mem_insertDesc (key : Nat → Nat) (m a : Nat) :
    ∀ l : List Nat, a ∈ insertDesc key m l ↔ a = m ∨ a ∈ l := by
  intro l
  induction l with
  | nil => simp [insertDesc]
  | cons x xs ih =>
    unfold insertDesc
    by_cases h : key x ≤ key m
    · simp [h]
    · simp only [h, if_false, List.mem_cons, ih]
      tauto

theorem mem_sortDesc (key : Nat → Nat) (a : Nat) :
    ∀ l : List Nat, a ∈ sortDesc key l ↔ a ∈ l := by
  intro l
  induction l with
  | nil => simp [sortDesc]
  | cons x xs ih => simp [sortDesc, mem_insertDesc, ih]

/-! ## The game-theoretic value: stability and characterization -/

theorem list_any_congr {α : Type} (f g : α → Bool) :
    ∀ l : List α, (∀ a ∈ l, f a = g a) → l.any f = l.any g := by
  intro l
  induction l with
  | nil => intro _; rfl
  | cons x xs ih =>
    intro h
    simp only [List.any_cons]
    rw [h x (by simp), ih fun a ha => h a (by simp [ha])]

theorem gameWinB_stable {Pos : Type} (B : BoardOps Pos) (L : B.Lawful) :
    ∀ (n : Nat) (p : Pos), B.emptyPoints p ≤ n →
      ∀ f g : Nat, B.emptyPoints p < f → B.emptyPoints p < g →
        gameWinB B f p = gameWinB B g p := by
  intro n
  induction n using Nat.strong_induction_on with
  | _ n ih =>
    intro p hpn f g hf hg
    cases f with
    | zero => exact absurd hf (by omega)
    | succ f1 =>
      cases g with
      | zero => exact absurd hg (by omega)
      | succ g1 =>
        simp only [gameWinB]
        apply list_any_congr
        intro m hm
        have hok := L.legal_play p m hm
        have hdec := L.play_decr p m (B.current p) hok
        have h1 := ih (B.emptyPoints (B.playMove p m (B.current p)).1) (by omega)
          (B.playMove p m (B.current p)).1 (le_refl _) f1 g1 (by omega) (by omega)
        rw [h1]

theorem gameWinB_eq_gameWin {Pos : Type} (B : BoardOps Pos) (L : B.Lawful)
    (p : Pos) (f : Nat) (hf : B.emptyPoints p < f) :
    gameWinB B f p = gameWin B p := by
  unfold gameWin
  exact gameWinB_stable B L (B.emptyPoints p) p (le_refl _) f (B.emptyPoints p + 1)
    hf (by omega)

theorem gameWin_unfold {Pos : Type} (B : BoardOps Pos) (p : Pos) :
    gameWin B p = (B.legalMoves p (B.current p)).any fun m =>
      !(gameWinB B (B.emptyPoints p) (B.playMove p m (B.current p)).1) := by
  unfold gameWin
  simp only [gameWinB]

theorem gameWin_iff {Pos : Type} (B : BoardOps Pos) (L : B.Lawful) (p : Pos) :
    gameWin B p = true ↔ ∃ m, m ∈ B.legalMoves p (B.current p) ∧
      gameWin B (B.playMove p m (B.current p)).1 = false := by
  rw [gameWin_unfold B p, List.any_eq_true]
  constructor
  · rintro ⟨m, hm, hval⟩
    refine ⟨m, hm, ?_⟩
    have hok := L.legal_play p m hm
    have hdec := L.play_decr p m (B.current p) hok
    have heq := gameWinB_eq_gameWin B L (B.playMove p m (B.current p)).1
      (B.emptyPoints p) (by omega)
    rw [heq] at hval
    simpa using hval
  · rintro ⟨m, hm, hval⟩
    refine ⟨m, hm, ?_⟩
    have hok := L.legal_play p m hm
    have hdec := L.play_decr p m (B.current p) hok
    have heq := gameWinB_eq_gameWin B L (B.playMove p m (B.current p)).1
      (B.emptyPoints p) (by omega)
    rw [heq]
    simp [hval]

theorem gameWin_false_iff {Pos : Type} (B : BoardOps Pos) (L : B.Lawful) (p : Pos) :
    gameWin B p = false ↔ ∀ m ∈ B.legalMoves p (B.current p),
      gameWin B (B.playMove p m (B.current p)).1 = true := by
  constructor
  · intro h m hm
    by_contra hc
    have hc2 : gameWin B (B.playMove p m (B.current p)).1 = false := by
      cases hx : gameWin B (B.playMove p m (B.current p)).1
      · rfl
      · exact absurd hx hc
    have : gameWin B p = true := (gameWin_iff B L p).mpr ⟨m, hm, hc2⟩
    rw [this] at h
    exact absurd h (by simp)
  · intro h
    cases hx : gameWin B p
    · rfl
    · rcases (gameWin_iff B L p).mp hx with ⟨m, hm, hval⟩
      rw [h m hm] at hval
      exact absurd hval (by simp)

theorem gameWin_of_no_moves {Pos : Type} (B : BoardOps Pos) (L : B.Lawful)
    (p : Pos) (h : B.legalMoves p (B.current p) = []) : gameWin B p = false := by
  rw [gameWin_false_iff B L p]
  intro m hm
  rw [h] at hm
  exact absurd hm (by simp)

/-! ## The solver restores the board on every normal return -/

theorem negamax_loop_restore {Pos : Type} (B : BoardOps Pos) (L : B.Lawful)
    (rec : SearchState Pos → Nat → Option (Bool × Option Nat) × SearchState Pos)
    (hrec : ∀ st d r st2, rec st d = (some r, st2) → st2.board = st.board) :
    ∀ (moves : List Nat) (st : SearchState Pos) (d : Nat),
      (∀ m ∈ moves, m ∈ B.legalMoves st.board (B.current st.board)) →
      ∀ r st2, negamax_loop B rec moves st d = (some r, st2) → st2.board = st.board := by
  intro moves
  induction moves with
  | nil =>
    intro st d hmem r st2 h
    simp only [negamax_loop, Prod.mk.injEq] at h
    obtain ⟨h1, h2⟩ := h
    subst h2
    rfl
  | cons m ms ih =>
    intro st d hmem r st2 h
    have hm : m ∈ B.legalMoves st.board (B.current st.board) := hmem m (by simp)
    have hok : (B.playMove st.board m (B.current st.board)).2 = true :=
      L.legal_play st.board m hm
    simp only [negamax_loop] at h
    rcases hrec1 : rec { st with
        board := (B.playMove st.board m (B.current st.board)).1,
        playCount := st.playCount + 1 } (d + 1) with ⟨ro, stA⟩
    rw [hrec1] at h
    cases ro with
    | none => simp at h
    | some sub =>
      have hA : stA.board = (B.playMove st.board m (B.current st.board)).1 :=
        hrec _ _ _ _ hrec1
      have hundo : B.undoMove stA.board m = st.board := by
        rw [hA]
        exact L.undo_play st.board m (B.current st.board) hok
      by_cases hs : sub.1
      · simp only [hs, Bool.not_true, if_false, Bool.false_eq_true] at h
        have h2 := ih { stA with board := B.undoMove stA.board m } d
          (by intro m2 hm2
              have : B.undoMove stA.board m = st.board := hundo
              simp only [this]
              exact hmem m2 (by simp [hm2])) r st2 h
        rw [h2]
        exact hundo
      · have hs2 : sub.1 = false := by
          cases hx : sub.1
          · rfl
          · exact absurd hx hs
        simp only [hs2, Bool.not_false, if_true, Prod.mk.injEq] at h
        obtain ⟨h1, h2⟩ := h
        subst h2
        exact hundo

theorem negamax_boolean_restore {Pos : Type} (B : BoardOps Pos) (L : B.Lawful) :
    ∀ (fuel : Nat) (st : SearchState Pos) (d : Nat) r st2,
      negamax_boolean B fuel st d = (some r, st2) → st2.board = st.board := by
  intro fuel
  induction fuel with
  | zero =>
    intro st d r st2 h
    simp [negamax_boolean] at h
  | succ fuel ih =>
    intro st d r st2 h
    simp only [negamax_boolean] at h
    rcases hlk : st.tt.lookup (B.code st.board) with _ | res
    · rw [hlk] at h
      apply negamax_loop_restore B L _ ih _ st d _ r st2 h
      intro m hm
      rw [mem_sortDesc] at hm
      exact hm
    · rw [hlk] at h
      simp only [Prod.mk.injEq] at h
      obtain ⟨h1, h2⟩ := h
      subst h2
      rfl

/-! ## A completed call leaves its own result in the transposition table -/

theorem negamax_loop_selflookup {Pos : Type} (B : BoardOps Pos)
    (rec : SearchState Pos → Nat → Option (Bool × Option Nat) × SearchState Pos) :
    ∀ (moves : List Nat) (st : SearchState Pos) (d : Nat) r st2,
      negamax_loop B rec moves st d = (some r, st2) →
      st2.tt.lookup (B.code st2.board) = some r := by
  intro moves
  induction moves with
  | nil =>
    intro st d r st2 h
    simp only [negamax_loop, Prod.mk.injEq] at h
    obtain ⟨h1, h2⟩ := h
    subst h2
    simp only [store_result] at h1 ⊢
    rw [← h1]
    exact TranspositionTable.lookup_store_self _ _ _ _
  | cons m ms ih =>
    intro st d r st2 h
    simp only [negamax_loop] at h
    rcases hrec1 : rec { st with
        board := (B.playMove st.board m (B.current st.board)).1,
        playCount := st.playCount + 1 } (d + 1) with ⟨ro, stA⟩
    rw [hrec1] at h
    cases ro with
    | none => simp at h
    | some sub =>
      by_cases hs : sub.1
      · simp only [hs, Bool.not_true, if_false, Bool.false_eq_true] at h
        exact ih _ d r st2 h
      · have hs2 : sub.1 = false := by
          cases hx : sub.1
          · rfl
          · exact absurd hx hs
        simp only [hs2, Bool.not_false, if_true, Prod.mk.injEq] at h
        obtain ⟨h1, h2⟩ := h
        subst h2
        simp only [store_result] at h1 ⊢
        rw [← h1]
        exact TranspositionTable.lookup_store_self _ _ _ _

theorem negamax_boolean_selflookup {Pos : Type} (B : BoardOps Pos) :
    ∀ (fuel : Nat) (st : SearchState Pos) (d : Nat) r st2,
      negamax_boolean B fuel st d = (some r, st2) →
      st2.tt.lookup (B.code st2.board) = some r := by
  intro fuel
  cases fuel with
  | zero =>
    intro st d r st2 h
    simp [negamax_boolean] at h
  | succ fuel =>
    intro st d r st2 h
    simp only [negamax_boolean] at h
    rcases hlk : st.tt.lookup (B.code st.board) with _ | res
    · rw [hlk] at h
      exact negamax_loop_selflookup B _ _ st d r st2 h
    · rw [hlk] at h
      simp only [Prod.mk.injEq] at h
      obtain ⟨h1, h2⟩ := h
      subst h2
      simp only []
      rw [← h1]
      exact hlk

/-! ## History-table monotonicity and the update/return correspondence -/

/-- Relation between the state at entry and at exit of (part of) a search:
history scores never decrease, the return log only grows, and any move whose
history score grew was logged as the winning move of some completed call. -/
def HtPost {Pos : Type} (st stF : SearchState Pos) : Prop :=
  (∀ m, st.ht.lookup m ≤ stF.ht.lookup m) ∧
  (∀ e ∈ st.retLog, e ∈ stF.retLog) ∧
  (∀ m, st.ht.lookup m < stF.ht.lookup m →
    ∃ c d2, (c, d2, true, some m) ∈ stF.retLog)

theorem HtPost_of_ht_eq {Pos : Type} {st st2 : SearchState Pos} (h1 : st2.ht = st.ht)
    (h2 : ∀ e ∈ st.retLog, e ∈ st2.retLog) : HtPost st st2 := by
  refine ⟨?_, h2, ?_⟩
  · intro m
    rw [h1]
  · intro m hlt
    rw [h1] at hlt
    exact absurd hlt (lt_irrefl _)

theorem HtPost_trans {Pos : Type} {st st2 st3 : SearchState Pos}
    (h1 : HtPost st st2) (h2 : HtPost st2 st3) : HtPost st st3 := by
  obtain ⟨m1, r1, i1⟩ := h1
  obtain ⟨m2, r2, i2⟩ := h2
  refine ⟨fun m => le_trans (m1 m) (m2 m), fun e he => r2 e (r1 e he), ?_⟩
  intro m hlt
  by_cases hc : st.ht.lookup m < st2.ht.lookup m
  · rcases i1 m hc with ⟨c, d2, hin⟩
    exact ⟨c, d2, r2 _ hin⟩
  · have heq : st2.ht.lookup m = st.ht.lookup m := le_antisymm (by omega) (m1 m)
    exact i2 m (by omega)

theorem negamax_loop_ht {Pos : Type} (B : BoardOps Pos)
    (rec : SearchState Pos → Nat → Option (Bool × Option Nat) × SearchState Pos)
    (hrec : ∀ st d, HtPost st (rec st d).2) :
    ∀ (moves : List Nat) (st : SearchState Pos) (d : Nat),
      HtPost st (negamax_loop B rec moves st d).2 := by
  intro moves
  induction moves with
  | nil =>
    intro st d
    simp only [negamax_loop]
    exact HtPost_of_ht_eq rfl (by intro e he; simp [he])
  | cons m ms ih =>
    intro st d
    simp only [negamax_loop]
    rcases hrec1 : rec { st with
        board := (B.playMove st.board m (B.current st.board)).1,
        playCount := st.playCount + 1 } (d + 1) with ⟨ro, stA⟩
    have hstep : HtPost st stA := by
      have h1 : HtPost st { st with
          board := (B.playMove st.board m (B.current st.board)).1,
          playCount := st.playCount + 1 } :=
        HtPost_of_ht_eq rfl (by intro e he; exact he)
      have h2 := hrec { st with
          board := (B.playMove st.board m (B.current st.board)).1,
          playCount := st.playCount + 1 } (d + 1)
      rw [hrec1] at h2
      exact HtPost_trans h1 h2
    cases ro with
    | none => exact hstep
    | some sub =>
      have hstep3 : HtPost st { stA with board := B.undoMove stA.board m } :=
        HtPost_trans hstep (HtPost_of_ht_eq rfl (by intro e he; exact he))
    
      by_cases hs : sub.1
      · simp only [hs, Bool.not_true, Bool.false_eq_true, if_false]
        exact HtPost_trans hstep3 (ih _ d)
      · have hs2 : sub.1 = false := by
          cases hx : sub.1
          · rfl
          · exact absurd hx hs
        simp only [hs2, Bool.not_false, if_true]
        apply HtPost_trans hstep3
        constructor
        · intro m2
          exact HistoryHeuristicTable.lookup_update_le _ m d m2
        constructor
        · intro e he
          simp only [List.mem_cons]
          right
          exact he
        · intro m2 hlt
          by_cases hm2 : m2 = m
          · exact ⟨B.code (B.undoMove stA.board m), d, by simp [store_result, hm2]⟩
          · rw [HistoryHeuristicTable.lookup_update_other _ m d m2 hm2] at hlt
            exact absurd hlt (lt_irrefl _)

theorem negamax_boolean_ht {Pos : Type} (B : BoardOps Pos) :
    ∀ (fuel : Nat) (st : SearchState Pos) (d : Nat),
      HtPost st (negamax_boolean B fuel st d).2 := by
  intro fuel
  induction fuel with
  | zero =>
    intro st d
    simp only [negamax_boolean]
    exact HtPost_of_ht_eq rfl (by intro e he; exact he)
  | succ fuel ih =>
    intro st d
    simp only [negamax_boolean]
    rcases hlk : st.tt.lookup (B.code st.board) with _ | res
    · exact negamax_loop_ht B _ ih _ st d
    · exact HtPost_of_ht_eq rfl (by intro e he; simp [he])

/-! ## Soundness of the search against the game-theoretic value -/

/-- A correct transposition-table entry for position `p`: the boolean is the
game value, a winning entry carries a legal winning move, and a losing entry
carries no move. -/
def goodEntry {Pos : Type} (B : BoardOps Pos) (p : Pos) (e : Bool × Option Nat) : Prop :=
  e.1 = gameWin B p ∧
  (e.1 = true → ∃ mv, e.2 = some mv ∧ mv ∈ B.legalMoves p (B.current p) ∧
     gameWin B (B.playMove p mv (B.current p)).1 = false) ∧
  (e.1 = false → e.2 = none)

/-- Every entry of the transposition table is correct for the position whose
code it is stored under. -/
def TTok {Pos : Type} (B : BoardOps Pos) (tt : TranspositionTable) : Prop :=
  ∀ p e, tt.lookup (B.code p) = some e → goodEntry B p e

/-- Entries present before are still present (with the same value) after. -/
def ttPreserve (t1 t2 : TranspositionTable) : Prop :=
  ∀ c e, t1.lookup c = some e → t2.lookup c = some e

/-- Every code that appears between `t1` and `t2` is the code of some
position with at most `n` empty points. -/
def ttNewBound {Pos : Type} (B : BoardOps Pos) (t1 t2 : TranspositionTable) (n : Nat) : Prop :=
  ∀ c, t1.lookup c = none → (∃ e, t2.lookup c = some e) →
    ∃ q : Pos, c = B.code q ∧ B.emptyPoints q ≤ n

theorem ttPreserve_refl (t : TranspositionTable) : ttPreserve t t :=
  fun _ _ h => h

theorem ttPreserve_trans {t1 t2 t3 : TranspositionTable}
    (h1 : ttPreserve t1 t2) (h2 : ttPreserve t2 t3) : ttPreserve t1 t3 :=
  fun c e h => h2 c e (h1 c e h)

theorem ttNewBound_refl {Pos : Type} (B : BoardOps Pos) (t : TranspositionTable)
    (n : Nat) : ttNewBound B t t n := by
  intro c h1 h2
  rcases h2 with ⟨e, he⟩
  rw [h1] at he
  exact absurd he (by simp)

theorem ttNewBound_comp {Pos : Type} (B : BoardOps Pos)
    {t1 t2 t3 : TranspositionTable} {a b n : Nat}
    (h1 : ttNewBound B t1 t2 a) (h2 : ttNewBound B t2 t3 b)
    (ha : a ≤ n) (hb : b ≤ n) : ttNewBound B t1 t3 n := by
  intro c hc1 hc3
  rcases hlk : t2.lookup c with _ | e
  · rcases h2 c hlk hc3 with ⟨q, hq1, hq2⟩
    exact ⟨q, hq1, le_trans hq2 hb⟩
  · rcases h1 c hc1 ⟨e, hlk⟩ with ⟨q, hq1, hq2⟩
    exact ⟨q, hq1, le_trans hq2 ha⟩

theorem ttPreserve_store {t : TranspositionTable} {c : Nat}
    (h : t.lookup c = none) (b : Bool) (m : Option Nat) :
    ttPreserve t (t.store c b m) := by
  intro c2 e he
  by_cases hc : c2 = c
  · subst hc
    rw [h] at he
    exact absurd he (by simp)
  · rw [TranspositionTable.lookup_store_other t c c2 hc b m]
    exact he

theorem ttNewBound_store {Pos : Type} (B : BoardOps Pos) (t : TranspositionTable)
    (p0 : Pos) (b : Bool) (m : Option Nat) :
    ttNewBound B t (t.store (B.code p0) b m) (B.emptyPoints p0) := by
  intro c hc1 hc2
  by_cases hc : c = B.code p0
  · exact ⟨p0, hc, le_refl _⟩
  · rcases hc2 with ⟨e, he⟩
    rw [TranspositionTable.lookup_store_other t (B.code p0) c hc b m] at he
    rw [hc1] at he
    exact absurd he (by simp)

theorem lookup_none_of_newBound {Pos : Type} (B : BoardOps Pos) (L : B.Lawful)
    {t1 t2 : TranspositionTable} {p0 : Pos} {n : Nat}
    (h0 : t1.lookup (B.code p0) = none) (hnb : ttNewBound B t1 t2 n)
    (hn : n < B.emptyPoints p0) : t2.lookup (B.code p0) = none := by
  rcases hlk : t2.lookup (B.code p0) with _ | e
  · rfl
  · rcases hnb (B.code p0) h0 ⟨e, hlk⟩ with ⟨q, hq1, hq2⟩
    have : p0 = q := L.code_inj p0 q hq1
    subst this
    exact absurd hq2 (by omega)

theorem TTok_store {Pos : Type} (B : BoardOps Pos) (L : B.Lawful)
    {tt : TranspositionTable} {p0 : Pos} {b : Bool} {m : Option Nat}
    (hok : TTok B tt) (hnone : tt.lookup (B.code p0) = none)
    (hg : goodEntry B p0 (b, m)) : TTok B (tt.store (B.code p0) b m) := by
  intro q e he
  by_cases hc : B.code q = B.code p0
  · have : q = p0 := L.code_inj q p0 hc
    subst this
    rw [hc, TranspositionTable.lookup_store_self] at he
    have : e = (b, m) := by
      cases he
      rfl
    rw [this]
    exact hg
  · rw [TranspositionTable.lookup_store_other tt (B.code p0) (B.code q) hc b m] at he
    exact hok q e he

theorem negamax_loop_main {Pos : Type} (B : BoardOps Pos) (L : B.Lawful) (fuel : Nat)
    (IH : ∀ (st : SearchState Pos) (d : Nat), TTok B st.tt →
      B.emptyPoints st.board < fuel →
      ∃ r st2, negamax_boolean B fuel st d = (some r, st2) ∧
        goodEntry B st.board r ∧ st2.board = st.board ∧ TTok B st2.tt ∧
        ttPreserve st.tt st2.tt ∧
        ttNewBound B st.tt st2.tt (B.emptyPoints st.board)) :
    ∀ (moves : List Nat) (st : SearchState Pos) (d : Nat),
      TTok B st.tt → st.tt.lookup (B.code st.board) = none →
      B.emptyPoints st.board ≤ fuel →
      (∀ m ∈ moves, m ∈ B.legalMoves st.board (B.current st.board)) →
      (∀ m ∈ B.legalMoves st.board (B.current st.board),
        m ∈ moves ∨ gameWin B (B.playMove st.board m (B.current st.board)).1 = true) →
      ∃ r st2, negamax_loop B (fun s2 d2 => negamax_boolean B fuel s2 d2) moves st d
          = (some r, st2) ∧
        goodEntry B st.board r ∧ st2.board = st.board ∧ TTok B st2.tt ∧
        ttPreserve st.tt st2.tt ∧ ttNewBound B st.tt st2.tt (B.emptyPoints st.board) := by
  intro moves
  induction moves with
  | nil =>
    intro st d hok hnone hfuel hmem hcov
    have hwin : gameWin B st.board = false := by
      rw [gameWin_false_iff B L st.board]
      intro m hm
      rcases hcov m hm with h | h
      · exact absurd h (by simp)
      · exact h
    have hgood : goodEntry B st.board (false, none) := by
      refine ⟨by simp [hwin], ?_, fun _ => rfl⟩
      intro h
      exact absurd h (by simp)
    have hred : negamax_loop B (fun s2 d2 => negamax_boolean B fuel s2 d2) [] st d
        = (some (false, none),
           { st with tt := st.tt.store (B.code st.board) false none,
                     retLog := (B.code st.board, d, (false, none)) :: st.retLog }) := by
      simp [negamax_loop, store_result, TranspositionTable.store]
    refine ⟨(false, none), _, hred, hgood, rfl, ?_, ?_, ?_⟩
    · exact TTok_store B L hok hnone hgood
    · exact ttPreserve_store hnone false none
    · exact ttNewBound_store B st.tt st.board false none
  | cons m ms ih =>
    intro st d hok hnone hfuel hmem hcov
    have hm : m ∈ B.legalMoves st.board (B.current st.board) := hmem m (by simp)
    have hok2 : (B.playMove st.board m (B.current st.board)).2 = true :=
      L.legal_play _ _ hm
    have hdec : B.emptyPoints (B.playMove st.board m (B.current st.board)).1
        < B.emptyPoints st.board := L.play_decr _ _ _ hok2
    obtain ⟨sub, stA, heq, hgoodA, hboardA, hokA, hpresA, hnbA⟩ :=
      IH { st with board := (B.playMove st.board m (B.current st.board)).1,
                   playCount := st.playCount + 1 } (d + 1) hok (by simp only []; omega)
    have hundo : B.undoMove stA.board m = st.board := by
      have hbA : stA.board = (B.playMove st.board m (B.current st.board)).1 := hboardA
      rw [hbA]
      exact L.undo_play _ _ _ hok2
    have hnone2 : stA.tt.lookup (B.code st.board) = none :=
      lookup_none_of_newBound B L hnone hnbA (by simp only [] at hnbA ⊢; omega)
    have hsubval : sub.1 = gameWin B (B.playMove st.board m (B.current st.board)).1 :=
      hgoodA.1
    cases hsub : sub.1 with
    | false =>
      have hwin : gameWin B st.board = true := by
        rw [gameWin_iff B L st.board]
        refine ⟨m, hm, ?_⟩
        rw [← hsubval, hsub]
      have hgood : goodEntry B st.board (true, some m) := by
        refine ⟨by simp [hwin], ?_, ?_⟩
        · intro _
          refine ⟨m, rfl, hm, ?_⟩
          rw [← hsubval, hsub]
        · intro h
          exact absurd h (by simp)
      have hred : negamax_loop B (fun s2 d2 => negamax_boolean B fuel s2 d2)
          (m :: ms) st d
          = (some (true, some m),
             { board := B.undoMove stA.board m,
               tt := stA.tt.store (B.code (B.undoMove stA.board m)) true (some m),
               ht := stA.ht.update m d,
               playCount := stA.playCount,
               updateLog := (m, d) :: stA.updateLog,
               retLog := (B.code (B.undoMove stA.board m), d, (true, some m))
                 :: stA.retLog }) := by
        simp only [negamax_loop]
        rw [heq]
        simp [hsub, store_result]
      rw [hundo] at hred
      refine ⟨(true, some m), _, hred, hgood, rfl, ?_, ?_, ?_⟩
      · exact TTok_store B L hokA hnone2 hgood
      · exact ttPreserve_trans hpresA (ttPreserve_store hnone2 true (some m))
      · exact ttNewBound_comp B hnbA (ttNewBound_store B stA.tt st.board true (some m))
          (by simp only [] at hnbA ⊢; omega) (le_refl _)
    | true =>
      have hred : negamax_loop B (fun s2 d2 => negamax_boolean B fuel s2 d2)
          (m :: ms) st d
          = negamax_loop B (fun s2 d2 => negamax_boolean B fuel s2 d2) ms
            { stA with board := B.undoMove stA.board m } d := by
        simp only [negamax_loop]
        rw [heq]
        simp [hsub]
      have hboard3 : ({ stA with board := B.undoMove stA.board m } : SearchState Pos).board
          = st.board := hundo
      obtain ⟨r, st2, hEq2, hgood2, hboard2, hok3, hpres3, hnb3⟩ :=
        ih { stA with board := B.undoMove stA.board m } d
          hokA (by rw [hboard3]; exact hnone2) (by rw [hboard3]; exact hfuel)
          (by rw [hboard3]; intro m2 hm2; exact hmem m2 (by simp [hm2]))
          (by rw [hboard3]
              intro m2 hm2
              rcases hcov m2 hm2 with h | h
              · rcases List.mem_cons.mp h with h2 | h2
                · subst h2
                  right
                  rw [← hsubval, hsub]
                · exact Or.inl h2
              · exact Or.inr h)
      rw [hboard3] at hgood2 hboard2 hnb3
      refine ⟨r, st2, by rw [hred]; exact hEq2, hgood2, hboard2, hok3,
        ttPreserve_trans hpresA hpres3, ?_⟩
      exact ttNewBound_comp B hnbA hnb3 (by simp only [] at hnbA ⊢; omega) (le_refl _)

theorem negamax_boolean_main {Pos : Type} (B : BoardOps Pos) (L : B.Lawful) :
    ∀ (fuel : Nat) (st : SearchState Pos) (d : Nat), TTok B st.tt →
      B.emptyPoints st.board < fuel →
      ∃ r st2, negamax_boolean B fuel st d = (some r, st2) ∧
        goodEntry B st.board r ∧ st2.board = st.board ∧ TTok B st2.tt ∧
        ttPreserve st.tt st2.tt ∧
        ttNewBound B st.tt st2.tt (B.emptyPoints st.board) := by
  intro fuel
  induction fuel with
  | zero =>
    intro st d hok hf
    exact absurd hf (by omega)
  | succ fuel ihf =>
    intro st d hok hf
    rcases hlk : st.tt.lookup (B.code st.board) with _ | res
    · obtain ⟨r, st2, hEq, hgood, hboard, hok2, hpres, hnb⟩ :=
        negamax_loop_main B L fuel ihf
          (sortDesc st.ht.lookup (B.legalMoves st.board (B.current st.board)))
          st d hok hlk (by omega)
          (fun m hm => (mem_sortDesc st.ht.lookup m _).mp hm)
          (fun m hm => Or.inl ((mem_sortDesc st.ht.lookup m _).mpr hm))
      refine ⟨r, st2, ?_, hgood, hboard, hok2, hpres, hnb⟩
      simp only [negamax_boolean]
      rw [hlk]
      exact hEq
    · refine ⟨res, { st with retLog := (B.code st.board, d, res) :: st.retLog }, ?_,
        hok st.board res hlk, rfl, hok, ttPreserve_refl _, ttNewBound_refl B _ _⟩
      simp only [negamax_boolean]
      rw [hlk]

/-! ## The concrete subtraction-game board is lawful -/

theorem nimB_legal_mem (p : Nat × Bool) (c : Bool) (m : Nat) :
    m ∈ nimB.legalMoves p c ↔ (1 ≤ m ∧ m ≤ 2 ∧ m ≤ p.1) := by
  simp only [nimB, List.mem_append]
  by_cases h1 : 1 ≤ p.1 <;> by_cases h2 : 2 ≤ p.1 <;> simp [h1, h2] <;> omega

theorem nimB_play_pos {p : Nat × Bool} {m : Nat} (c : Bool)
    (hc : 1 ≤ m ∧ m ≤ 2 ∧ m ≤ p.1) :
    nimB.playMove p m c = ((p.1 - m, !p.2), true) := by
  simp only [nimB]
  rw [if_pos hc]

theorem nimB_play_neg {p : Nat × Bool} {m : Nat} (c : Bool)
    (hc : ¬(1 ≤ m ∧ m ≤ 2 ∧ m ≤ p.1)) :
    nimB.playMove p m c = (p, false) := by
  simp only [nimB]
  rw [if_neg hc]

theorem nimB_lawful : nimB.Lawful := by
  constructor
  · intro p m hm
    rw [nimB_legal_mem] at hm
    rw [nimB_play_pos _ hm]
  · intro p m c hleg
    simp only [nimB, decide_eq_true_eq] at hleg
    rw [nimB_play_pos c hleg]
  · intro p m c hrej
    by_cases hc : 1 ≤ m ∧ m ≤ 2 ∧ m ≤ p.1
    · rw [nimB_play_pos c hc] at hrej
      exact absurd hrej (by simp)
    · rw [nimB_play_neg c hc]
  · intro p m c hok
    by_cases hc : 1 ≤ m ∧ m ≤ 2 ∧ m ≤ p.1
    · rw [nimB_play_pos c hc]
      simp only [nimB]
      rw [Prod.ext_iff]
      refine ⟨by simp only []; omega, by simp⟩
    · rw [nimB_play_neg c hc] at hok
      exact absurd hok (by simp)
  · intro p m c hok
    by_cases hc : 1 ≤ m ∧ m ≤ 2 ∧ m ≤ p.1
    · rw [nimB_play_pos c hc]
      simp only [nimB]
      omega
    · rw [nimB_play_neg c hc] at hok
      exact absurd hok (by simp)
  · intro p m c hok
    by_cases hc : 1 ≤ m ∧ m ≤ 2 ∧ m ≤ p.1
    · rw [nimB_play_pos c hc]
      rfl
    · rw [nimB_play_neg c hc] at hok
      exact absurd hok (by simp)
  · intro p q h
    rcases p with ⟨p1, p2⟩
    rcases q with ⟨q1, q2⟩
    simp only [nimB] at h
    cases p2 <;> cases q2 <;> simp at h <;>
      first
      | (exact absurd h (by omega))
      | (rw [Prod.ext_iff]; exact ⟨by omega, rfl⟩)

theorem TTok_empty {Pos : Type} (B : BoardOps Pos) : TTok B ⟨[]⟩ := by
  intro p e h
  simp [TranspositionTable.lookup] at h

/-! ## The claims -/

/-- C1: for every valid position (a lawful board, a sound transposition
table, and enough budget for the game to finish), `negamax_boolean` returns
`(true, m)` for some legal move `m` exactly when the player to move has a
forced win — `gameWin`, the exhaustive game-theoretic value (a position is a
win for the mover iff some legal move leads to a position that is not a win
for the opponent) — and a winning move it returns refutes the opponent;
a `false` verdict carries no move.  The agreement with the exhaustive value
`gameWin` under nothing but a sound table is exactly the statement that no
pruning happens beyond exact memoization and short-circuiting on the first
winning move. -/
theorem claim_C1 {Pos : Type} (B : BoardOps Pos) (L : B.Lawful)
    (st : SearchState Pos) (d fuel : Nat) (hTT : TTok B st.tt)
    (hfuel : B.emptyPoints st.board < fuel) :
    ∃ r st2, negamax_boolean B fuel st d = (some r, st2) ∧
      (r.1 = true ↔ gameWin B st.board = true) ∧
      (r.1 = true → ∃ mv, r.2 = some mv ∧
        mv ∈ B.legalMoves st.board (B.current st.board) ∧
        gameWin B (B.playMove st.board mv (B.current st.board)).1 = false) ∧
      (r.1 = false → r.2 = none) := by
  obtain ⟨r, st2, hEq, hgood, _⟩ := negamax_boolean_main B L fuel st d hTT hfuel
  exact ⟨r, st2, hEq, by rw [hgood.1], hgood.2.1, hgood.2.2⟩

theorem claim_C1_witness :
    ∃ r st2, negamax_boolean nimB 3 (initState (2, true)) 0 = (some r, st2) ∧
      (r.1 = true ↔ gameWin nimB (initState ((2 : Nat), true)).board = true) ∧
      (r.1 = true → ∃ mv, r.2 = some mv ∧
        mv ∈ nimB.legalMoves (initState ((2 : Nat), true)).board
          (nimB.current (initState ((2 : Nat), true)).board) ∧
        gameWin nimB (nimB.playMove (initState ((2 : Nat), true)).board mv
          (nimB.current (initState ((2 : Nat), true)).board)).1 = false) ∧
      (r.1 = false → r.2 = none) :=
  claim_C1 nimB nimB_lawful (initState (2, true)) 0 3 (TTok_empty nimB) (by decide)

/-- C2: after any call into the solver the board is as it was before: a
normal return of `negamax_boolean` leaves the search-state board equal to
the entry board, and the `solve` command — whether it returns normally or is
aborted by the timeout — leaves `board.code()` unchanged. -/
theorem claim_C2 {Pos : Type} (B : BoardOps Pos) (L : B.Lawful) :
    (∀ (fuel : Nat) (st : SearchState Pos) (d : Nat) r st2,
      negamax_boolean B fuel st d = (some r, st2) → st2.board = st.board) ∧
    (∀ (conn : GtpConnection Pos) (fuel : Nat),
      B.code (GtpConnection.solve B conn fuel).2.board = B.code conn.board) := by
  constructor
  · exact negamax_boolean_restore B L
  · intro conn fuel
    rcases hEq : negamax_boolean B fuel conn.searchState (B.countSteps conn.board)
      with ⟨ro, st2⟩
    cases ro with
    | none =>
      simp only [GtpConnection.solve, hEq]
    | some r =>
      have hb : st2.board = conn.board :=
        negamax_boolean_restore B L fuel conn.searchState _ r st2 hEq
      cases hr2 : r.2 with
      | none =>
        simp only [GtpConnection.solve, hEq, hr2]
        rw [hb]
      | some mv =>
        simp only [GtpConnection.solve, hEq, hr2]
        rw [hb]

theorem claim_C2_witness :
    nimB.code (GtpConnection.solve nimB ⟨(3, true), ⟨[]⟩, ⟨[]⟩⟩ 1).2.board
      = nimB.code ((3 : Nat), true) :=
  (claim_C2 nimB nimB_lawful).2 ⟨(3, true), ⟨[]⟩, ⟨[]⟩⟩ 1

/-- C3: if the deadline fires before the solver returns (the search is
aborted, leaving some possibly mid-mutation state `stE`), `solve` responds
`unknown` and replaces the live board with the snapshot taken before the
search, so the board afterwards equals its pre-call state (the aborted
search's table mutations are kept). -/
theorem claim_C3 {Pos : Type} (B : BoardOps Pos) (conn : GtpConnection Pos)
    (fuel : Nat) (stE : SearchState Pos)
    (hto : negamax_boolean B fuel conn.searchState (B.countSteps conn.board)
      = (none, stE)) :
    GtpConnection.solve B conn fuel
      = (SolveResponse.unknown, { board := conn.board, tt := stE.tt, ht := stE.ht }) := by
  simp only [GtpConnection.solve, hto]

theorem claim_C3_witness :
    GtpConnection.solve nimB ⟨(3, true), ⟨[]⟩, ⟨[]⟩⟩ 1
      = (SolveResponse.unknown, ⟨(3, true), ⟨[]⟩, ⟨[]⟩⟩) :=
  claim_C3 nimB ⟨(3, true), ⟨[]⟩, ⟨[]⟩⟩ 1 ⟨(2, false), ⟨[]⟩, ⟨[]⟩, 1, [], []⟩
    (by decide)

/-- C4: on a position with zero legal moves (and no memoized entry for it),
the solver falls through the empty move loop, returns `(false, none)` — a
loss for the mover — and stores `(false, none)` in the transposition table
under the position's code. -/
theorem claim_C4 {Pos : Type} (B : BoardOps Pos) (st : SearchState Pos)
    (fuel d : Nat) (hfuel : 1 ≤ fuel)
    (hterm : B.legalMoves st.board (B.current st.board) = [])
    (hmiss : st.tt.lookup (B.code st.board) = none) :
    negamax_boolean B fuel st d
      = (some (false, none),
         { st with tt := st.tt.store (B.code st.board) false none,
                   retLog := (B.code st.board, d, (false, none)) :: st.retLog }) ∧
    (st.tt.store (B.code st.board) false none).lookup (B.code st.board)
      = some (false, none) := by
  rcases fuel with _ | fuel
  · exact absurd hfuel (by omega)
  constructor
  · simp only [negamax_boolean]
    rw [hmiss, hterm]
    simp [sortDesc, negamax_loop, store_result]
  · exact TranspositionTable.lookup_store_self _ _ _ _

theorem claim_C4_witness :
    negamax_boolean nimB 1 (initState (0, true)) 0
      = (some (false, none),
         ⟨(0, true), ⟨[(1, (false, none))]⟩, ⟨[]⟩, 0, [], [(1, 0, false, none)]⟩) ∧
    TranspositionTable.lookup ⟨[(1, (false, none))]⟩ 1 = some (false, none) :=
  claim_C4 nimB (initState (0, true)) 1 0 (by decide) (by decide) (by decide)

/-- C5 counterexample: the claim that the applied move is undone on every
exit path fails on the code.  Concretely: from the position `(3, true)` with
empty tables and a budget that expires inside the first recursive call, the
solver aborts (`none`) with the board left at `(2, false)` — the move
applied in the first loop iteration was never undone, because the source has
no try/finally around the recursive call; `undoMove` runs only after a
normal return. -/
theorem claim_C5_counterexample :
    (negamax_boolean nimB 1 (initState (3, true)) 0).1 = none ∧
    (negamax_boolean nimB 1 (initState (3, true)) 0).2.board = (2, false) ∧
    ((2 : Nat), false) ≠ ((3 : Nat), true) := by
  refine ⟨by decide, by decide, by decide⟩

/-- C5 amended: in each iteration of the move loop the applied move is
undone when the recursive call returns normally (in both the winning and
the non-winning continuation the state proceeds with
`board := undoMove board move`); but when the recursive call is aborted by
the timeout, the abort propagates immediately and the undo is skipped — the
board is left exactly as the abort left it.  (Recovery on that path is the
snapshot restore in `solve`, claim C3.) -/
theorem claim_C5_amended {Pos : Type} (B : BoardOps Pos)
    (rec : SearchState Pos → Nat → Option (Bool × Option Nat) × SearchState Pos)
    (m : Nat) (ms : List Nat) (st : SearchState Pos) (d : Nat) :
    (∀ sub stA, rec { st with
        board := (B.playMove st.board m (B.current st.board)).1,
        playCount := st.playCount + 1 } (d + 1) = (some sub, stA) →
      sub.1 = true →
      negamax_loop B rec (m :: ms) st d
        = negamax_loop B rec ms { stA with board := B.undoMove stA.board m } d) ∧
    (∀ sub stA, rec { st with
        board := (B.playMove st.board m (B.current st.board)).1,
        playCount := st.playCount + 1 } (d + 1) = (some sub, stA) →
      sub.1 = false →
      (negamax_loop B rec (m :: ms) st d).2.board = B.undoMove stA.board m) ∧
    (∀ stE, rec { st with
        board := (B.playMove st.board m (B.current st.board)).1,
        playCount := st.playCount + 1 } (d + 1) = (none, stE) →
      negamax_loop B rec (m :: ms) st d = (none, stE)) := by
  refine ⟨?_, ?_, ?_⟩
  · intro sub stA hrec hs
    simp only [negamax_loop]
    rw [hrec]
    simp [hs]
  · intro sub stA hrec hs
    simp only [negamax_loop]
    rw [hrec]
    simp [hs, store_result]
  · intro stE hrec
    simp only [negamax_loop]
    rw [hrec]

theorem claim_C5_witness :
    negamax_loop nimB (negamax_boolean nimB 0) [1, 2] (initState (3, true)) 0
      = (none, ⟨(2, false), ⟨[]⟩, ⟨[]⟩, 1, [], []⟩) :=
  (claim_C5_amended nimB (negamax_boolean nimB 0) 1 [2] (initState (3, true)) 0).2.2
    ⟨(2, false), ⟨[]⟩, ⟨[]⟩, 1, [], []⟩ (by decide)

/-- C6: if a call of the solver completes with result `r`, the board is back
at the entry position, the transposition table now answers the entry
position's code with `r`, and a second call on the same unmodified position
and table state — at any positive budget and any depth — returns the
identical `r` directly from the table lookup: the board, both tables and
the move-application count are untouched (only the ghost return log grows),
so no move is re-applied and no re-search happens. -/
theorem claim_C6 {Pos : Type} (B : BoardOps Pos) (L : B.Lawful)
    (fuel d : Nat) (st : SearchState Pos) (r : Bool × Option Nat)
    (st2 : SearchState Pos)
    (h1 : negamax_boolean B fuel st d = (some r, st2))
    (fuel2 d2 : Nat) (hf2 : 1 ≤ fuel2) :
    st2.board = st.board ∧
    st2.tt.lookup (B.code st2.board) = some r ∧
    negamax_boolean B fuel2 st2 d2
      = (some r, { st2 with retLog := (B.code st2.board, d2, r) :: st2.retLog }) ∧
    (negamax_boolean B fuel2 st2 d2).2.playCount = st2.playCount := by
  have hb := negamax_boolean_restore B L fuel st d r st2 h1
  have hl := negamax_boolean_selflookup B fuel st d r st2 h1
  have he : negamax_boolean B fuel2 st2 d2
      = (some r, { st2 with retLog := (B.code st2.board, d2, r) :: st2.retLog }) := by
    rcases fuel2 with _ | fuel2
    · exact absurd hf2 (by omega)
    simp only [negamax_boolean]
    rw [hl]
  refine ⟨hb, hl, he, ?_⟩
  rw [he]

theorem claim_C6_witness :
    (⟨(1, true), ⟨[(3, (true, some 1)), (0, (false, none))]⟩, ⟨[(1, 0)]⟩, 1,
        [(1, 0)], [(3, 0, true, some 1), (0, 1, false, none)]⟩
      : SearchState (Nat × Bool)).board = ((1 : Nat), true) ∧
    TranspositionTable.lookup ⟨[(3, (true, some 1)), (0, (false, none))]⟩
      (nimB.code (⟨(1, true), ⟨[(3, (true, some 1)), (0, (false, none))]⟩, ⟨[(1, 0)]⟩, 1,
        [(1, 0)], [(3, 0, true, some 1), (0, 1, false, none)]⟩
          : SearchState (Nat × Bool)).board) = some (true, some 1) ∧
    negamax_boolean nimB 1
      ⟨(1, true), ⟨[(3, (true, some 1)), (0, (false, none))]⟩, ⟨[(1, 0)]⟩, 1,
        [(1, 0)], [(3, 0, true, some 1), (0, 1, false, none)]⟩ 7
      = (some (true, some 1),
         ⟨(1, true), ⟨[(3, (true, some 1)), (0, (false, none))]⟩, ⟨[(1, 0)]⟩, 1,
           [(1, 0)], [(3, 7, true, some 1), (3, 0, true, some 1), (0, 1, false, none)]⟩) ∧
    (negamax_boolean nimB 1
      ⟨(1, true), ⟨[(3, (true, some 1)), (0, (false, none))]⟩, ⟨[(1, 0)]⟩, 1,
        [(1, 0)], [(3, 0, true, some 1), (0, 1, false, none)]⟩ 7).2.playCount = 1 :=
  claim_C6 nimB nimB_lawful 2 0 (initState (1, true)) (true, some 1)
    ⟨(1, true), ⟨[(3, (true, some 1)), (0, (false, none))]⟩, ⟨[(1, 0)]⟩, 1,
      [(1, 0)], [(3, 0, true, some 1), (0, 1, false, none)]⟩ (by decide) 1 7 (by decide)

/-- C7: history-table behaviour — `update(move, depth)` adds `depth^2` to
the move's score (initializing an absent entry to `depth^2`), other moves
are untouched, lookup of an unseen move is `0`; through any solver call
(completed or aborted) every history score is non-decreasing, and a score
that strictly increased belongs to a move that some completed sub-call
returned as its winning move at some depth (recorded in the return log). -/
theorem claim_C7 {Pos : Type} (B : BoardOps Pos) :
    (∀ (ht : HistoryHeuristicTable) (m d : Nat),
      (ht.update m d).lookup m = ht.lookup m + d ^ 2) ∧
    (∀ (ht : HistoryHeuristicTable) (m d m2 : Nat), m2 ≠ m →
      (ht.update m d).lookup m2 = ht.lookup m2) ∧
    (∀ (ht : HistoryHeuristicTable) (m : Nat), (∀ e ∈ ht.table, e.1 ≠ m) →
      ht.lookup m = 0) ∧
    (∀ (fuel : Nat) (st : SearchState Pos) (d m : Nat),
      st.ht.lookup m ≤ (negamax_boolean B fuel st d).2.ht.lookup m) ∧
    (∀ (fuel : Nat) (st : SearchState Pos) (d m : Nat),
      st.ht.lookup m < (negamax_boolean B fuel st d).2.ht.lookup m →
      ∃ c d2, (c, d2, true, some m) ∈ (negamax_boolean B fuel st d).2.retLog) := by
  refine ⟨HistoryHeuristicTable.lookup_update_self,
    HistoryHeuristicTable.lookup_update_other,
    HistoryHeuristicTable.lookup_unseen, ?_, ?_⟩
  · intro fuel st d m
    exact (negamax_boolean_ht B fuel st d).1 m
  · intro fuel st d m hlt
    exact (negamax_boolean_ht B fuel st d).2.2 m hlt

theorem claim_C7_witness :
    (HistoryHeuristicTable.update ⟨[]⟩ 1 2).lookup 1
      = HistoryHeuristicTable.lookup ⟨[]⟩ 1 + 2 ^ 2 ∧
    (initState ((2 : Nat), true)).ht.lookup 1
      ≤ (negamax_boolean nimB 3 (initState (2, true)) 0).2.ht.lookup 1 ∧
    ∃ c d2, (c, d2, true, some 1)
      ∈ (negamax_boolean nimB 3 (initState (2, true)) 0).2.retLog :=
  ⟨(claim_C7 nimB).1 ⟨[]⟩ 1 2,
   (claim_C7 nimB).2.2.2.1 3 (initState (2, true)) 0 1,
   (claim_C7 nimB).2.2.2.2 3 (initState (2, true)) 0 1 (by decide)⟩

/-- C8: `genmove` runs the solver from the current position; it plays and
returns the solver's move when the solver finds one (necessarily a legal
winning move) that the board accepts as legal for the requested color, and
responds `resign` otherwise — in particular both when the solver reports no
winning move (`move = None`, e.g. a lost position) and when the board has no
legal moves at all. -/
theorem claim_C8 {Pos : Type} (B : BoardOps Pos) (L : B.Lawful)
    (conn : GtpConnection Pos) (fuel : Nat) (color : Bool)
    (hTT : TTok B conn.tt) (hfuel : B.emptyPoints conn.board < fuel) :
    (gameWin B conn.board = false →
      ∃ c2, GtpConnection.genmove_cmd B conn fuel color
        = some (GenmoveResponse.resign, c2)) ∧
    (B.legalMoves conn.board (B.current conn.board) = [] →
      ∃ c2, GtpConnection.genmove_cmd B conn fuel color
        = some (GenmoveResponse.resign, c2)) ∧
    (gameWin B conn.board = true →
      ∃ mv c2, mv ∈ B.legalMoves conn.board (B.current conn.board) ∧
        gameWin B (B.playMove conn.board mv (B.current conn.board)).1 = false ∧
        ((B.isLegal conn.board mv color = true ∧
          GtpConnection.genmove_cmd B conn fuel color
            = some (GenmoveResponse.move mv, c2)) ∨
         (B.isLegal conn.board mv color = false ∧
          GtpConnection.genmove_cmd B conn fuel color
            = some (GenmoveResponse.resign, c2)))) := by
  obtain ⟨r, st2, hEq, hgood, hboard, _⟩ :=
    negamax_boolean_main B L fuel conn.searchState 0 hTT hfuel
  have hb2 : st2.board = conn.board := hboard
  have hval : r.1 = gameWin B conn.board := hgood.1
  have hresign : gameWin B conn.board = false →
      ∃ c2, GtpConnection.genmove_cmd B conn fuel color
        = some (GenmoveResponse.resign, c2) := by
    intro hwin
    have hr1 : r.1 = false := by rw [hval, hwin]
    have hr2 : r.2 = none := hgood.2.2 hr1
    refine ⟨⟨st2.board, st2.tt, st2.ht⟩, ?_⟩
    simp only [GtpConnection.genmove_cmd, hEq, hr2]
  refine ⟨hresign, fun hleg => hresign (gameWin_of_no_moves B L conn.board hleg), ?_⟩
  intro hwin
  have hr1 : r.1 = true := by rw [hval, hwin]
  obtain ⟨mv, hmv2, hmvleg, hmvwin⟩ := hgood.2.1 hr1
  by_cases hleg : B.isLegal conn.board mv color = true
  · have hleg2 : B.isLegal st2.board mv color = true := by rw [hb2]; exact hleg
    refine ⟨mv, ⟨(B.playMove st2.board mv color).1, st2.tt, st2.ht⟩, hmvleg, hmvwin,
      Or.inl ⟨hleg, ?_⟩⟩
    simp only [GtpConnection.genmove_cmd, hEq, hmv2, hleg2, if_true]
  · have hlegF : B.isLegal conn.board mv color = false := by
      cases hx : B.isLegal conn.board mv color
      · rfl
      · exact absurd hx hleg
    have hleg2 : B.isLegal st2.board mv color = false := by rw [hb2]; exact hlegF
    refine ⟨mv, ⟨st2.board, st2.tt, st2.ht⟩, hmvleg, hmvwin, Or.inr ⟨hlegF, ?_⟩⟩
    simp only [GtpConnection.genmove_cmd, hEq, hmv2, hleg2, Bool.false_eq_true, if_false]

theorem claim_C8_witness :
    ∃ mv c2, mv ∈ nimB.legalMoves ((1 : Nat), true) (nimB.current ((1 : Nat), true)) ∧
      gameWin nimB (nimB.playMove ((1 : Nat), true) mv (nimB.current ((1 : Nat), true))).1
        = false ∧
      ((nimB.isLegal ((1 : Nat), true) mv true = true ∧
        GtpConnection.genmove_cmd nimB ⟨(1, true), ⟨[]⟩, ⟨[]⟩⟩ 2 true
          = some (GenmoveResponse.move mv, c2)) ∨
       (nimB.isLegal ((1 : Nat), true) mv true = false ∧
        GtpConnection.genmove_cmd nimB ⟨(1, true), ⟨[]⟩, ⟨[]⟩⟩ 2 true
          = some (GenmoveResponse.resign, c2))) :=
  (claim_C8 nimB nimB_lawful ⟨(1, true), ⟨[]⟩, ⟨[]⟩⟩ 2 true (TTok_empty nimB)
    (by decide)).2.2 (by decide)

/-- C9 counterexample: the claim that an illegal candidate rejected by the
board's apply is detected by the solver, which then skips to the next
candidate, fails on the code: `play_move`'s boolean result is discarded.
On a board whose only enumerated candidate is rejected by apply (the board
itself left unchanged), the solver does not skip it and return
`(false, none)`; it recurses on the unchanged position, re-applying the
rejected move at every level (five applications under budget five) until the
budget aborts the search (`none`). -/
theorem claim_C9_counterexample :
    ((0 : Nat) ∈ badB.legalMoves 0 (badB.current 0)) ∧
    badB.playMove 0 0 (badB.current 0) = (0, false) ∧
    (negamax_boolean badB 5 (initState 0) 0).1 = none ∧
    (negamax_boolean badB 5 (initState 0) 0).2.playCount = 5 := by
  refine ⟨by decide, by decide, by decide, by decide⟩

/-- C9 amended: the solver never inspects apply's boolean, so a rejection is
not detected.  Instead (first part) on a lawful board every candidate it
applies comes from the board's legal-move enumeration and is accepted by
apply, so the rejection case never arises during search; (second part) if
apply did reject an enumerated candidate (leaving the board unchanged), the
solver would simply recurse on the unchanged position — propagating that
call's outcome — rather than skip to the next candidate. -/
theorem claim_C9_amended {Pos : Type} (B : BoardOps Pos) :
    (∀ (L : B.Lawful) (p : Pos) (m : Nat), m ∈ B.legalMoves p (B.current p) →
      (B.playMove p m (B.current p)).2 = true) ∧
    (∀ (rec : SearchState Pos → Nat → Option (Bool × Option Nat) × SearchState Pos)
      (m : Nat) (ms : List Nat) (st : SearchState Pos) (d : Nat)
      (stE : SearchState Pos),
      (B.playMove st.board m (B.current st.board)).1 = st.board →
      rec { st with playCount := st.playCount + 1 } (d + 1) = (none, stE) →
      negamax_loop B rec (m :: ms) st d = (none, stE)) := by
  constructor
  · intro L p m hm
    exact L.legal_play p m hm
  · intro rec m ms st d stE hrej hrec
    simp only [negamax_loop]
    rw [hrej]
    rw [hrec]

theorem claim_C9_witness :
    negamax_loop badB (negamax_boolean badB 0) [0] (initState 0) 0
      = (none, ⟨0, ⟨[]⟩, ⟨[]⟩, 1, [], []⟩) :=
  (claim_C9_amended badB).2 (negamax_boolean badB 0) 0 [] (initState 0) 0
    ⟨0, ⟨[]⟩, ⟨[]⟩, 1, [], []⟩ (by decide) (by decide)

/-- C10: when `genmove` answers with a move rather than `resign`, it has
also played that move on the shared board before responding: afterwards the
board's code differs from before the call and the side to move has flipped
(unlike `solve`, which leaves the board untouched). -/
theorem claim_C10 {Pos : Type} (B : BoardOps Pos) (L : B.Lawful)
    (conn : GtpConnection Pos) (fuel : Nat) (color : Bool) (mv : Nat)
    (conn2 : GtpConnection Pos)
    (h : GtpConnection.genmove_cmd B conn fuel color
      = some (GenmoveResponse.move mv, conn2)) :
    B.code conn2.board ≠ B.code conn.board ∧
    B.current conn2.board = !(B.current conn.board) := by
  rcases hEq : negamax_boolean B fuel conn.searchState 0 with ⟨ro, st2⟩
  cases ro with
  | none => simp [GtpConnection.genmove_cmd, hEq] at h
  | some r =>
    have hb2 : st2.board = conn.board :=
      negamax_boolean_restore B L fuel conn.searchState 0 r st2 hEq
    cases hr2 : r.2 with
    | none =>
      simp [GtpConnection.genmove_cmd, hEq, hr2] at h
    | some mv2 =>
      by_cases hleg : B.isLegal st2.board mv2 color = true
      · simp only [GtpConnection.genmove_cmd, hEq, hr2, hleg, if_true,
          Option.some.injEq, Prod.mk.injEq, GenmoveResponse.move.injEq] at h
        obtain ⟨hmv, hconn2⟩ := h
        rw [hmv] at hleg hconn2
        have hok : (B.playMove st2.board mv color).2 = true :=
          L.isLegal_play st2.board mv color hleg
        have hdec := L.play_decr st2.board mv color hok
        have hflip := L.play_flip st2.board mv color hok
        constructor
        · intro hcode
          have hpos : conn2.board = conn.board := L.code_inj _ _ hcode
          have hb3 : conn2.board = (B.playMove st2.board mv color).1 := by
            rw [← hconn2]
          rw [hb3, hb2] at hpos
          rw [hb2] at hdec
          rw [hpos] at hdec
          exact absurd hdec (by omega)
        · have hb3 : conn2.board = (B.playMove st2.board mv color).1 := by
            rw [← hconn2]
          rw [hb3, hflip, hb2]
      · have hlegF : B.isLegal st2.board mv2 color = false := by
          cases hx : B.isLegal st2.board mv2 color
          · rfl
          · exact absurd hx hleg
        simp [GtpConnection.genmove_cmd, hEq, hr2, hlegF] at h

theorem claim_C10_witness :
    nimB.code ((⟨(0, false), ⟨[(3, (true, some 1)), (0, (false, none))]⟩, ⟨[(1, 0)]⟩⟩
        : GtpConnection (Nat × Bool)).board) ≠ nimB.code ((1 : Nat), true) ∧
    nimB.current ((⟨(0, false), ⟨[(3, (true, some 1)), (0, (false, none))]⟩, ⟨[(1, 0)]⟩⟩
        : GtpConnection (Nat × Bool)).board) = !(nimB.current ((1 : Nat), true)) :=
  claim_C10 nimB nimB_lawful ⟨(1, true), ⟨[]⟩, ⟨[]⟩⟩ 2 true 1
    ⟨(0, false), ⟨[(3, (true, some 1)), (0, (false, none))]⟩, ⟨[(1, 0)]⟩⟩ (by decide)
